import Mathlib

/-!
A shallow embedding of the core ICP decision engine of dReal (the
`soonho-tri/dreal4` repository slice): the sequential ICP loop
(`dreal/solver/icp.cc`), the parallel engine's caller-side logic and helpers
(`dreal/solver/icp_parallel.cc`), the interval expression evaluator and its
Taylor refinements (`dreal/util/expression_evaluator.cc`), the polytope
contractor's `Prune` (`contractor_ibex_polytope.cc`) and the lazily populated
multi-thread forward/backward contractor (`contractor_ibex_fwdbwd_mt.cc`).

Machine doubles are modelled by rationals, ibex intervals by pairs of
rationals, ibex bitsets by `Finset ℕ`, and dReal `Variable`s by their box
indices (the box/variable correspondence is a bijection in the source, so
nothing is lost).  Functions of the external ibex interval library that are
not rationally computable (log, true division, real-exponent powers) are kept
abstract as fields of an `IntervalOps` record; everything exercised by the
theorems below is computable.
-/

namespace Dreal

/-- Model of `ibex::Interval` (a pair of bounds; the interval is empty when
`ub < lb`).  The source works with machine doubles; we use rationals. -/
structure Interval where
  lb : ℚ
  ub : ℚ
  deriving DecidableEq, Repr

/-- The canonical empty interval (ibex `Interval::EMPTY_SET`). -/
def Interval.emptyI : Interval := ⟨1, 0⟩

/-- `ibex::Interval::is_empty`. -/
def Interval.isEmpty (x : Interval) : Bool := x.ub < x.lb

/-- `ibex::Interval::is_degenerated` (an empty interval counts as
degenerated in ibex). -/
def Interval.isDegenerated (x : Interval) : Bool := x.isEmpty || x.lb == x.ub

/-- `ibex::Interval::diam`. -/
def Interval.diam (x : Interval) : ℚ := x.ub - x.lb

/-- `ibex::Interval::mid`. -/
def Interval.mid (x : Interval) : ℚ := (x.lb + x.ub) / 2

/-- `ibex::Interval::is_bisectable`: the interval can be split at its
midpoint into two non-degenerate halves.  Over the rationals this is
exactly `lb < ub`. -/
def Interval.isBisectable (x : Interval) : Bool := x.lb < x.ub

/-- Interval addition (componentwise; exact over ℚ). -/
def Interval.add (x y : Interval) : Interval := ⟨x.lb + y.lb, x.ub + y.ub⟩

/-- Interval subtraction `x - y`. -/
def Interval.sub (x y : Interval) : Interval := ⟨x.lb - y.ub, x.ub - y.lb⟩

/-- Interval multiplication: min/max over the four endpoint products. -/
def Interval.mul (x y : Interval) : Interval :=
  ⟨min (min (x.lb * y.lb) (x.lb * y.ub)) (min (x.ub * y.lb) (x.ub * y.ub)),
   max (max (x.lb * y.lb) (x.lb * y.ub)) (max (x.ub * y.lb) (x.ub * y.ub))⟩

/-- The degenerate interval `[c, c]` (a double converted to an interval). -/
def Interval.ofQ (c : ℚ) : Interval := ⟨c, c⟩

/-- `ibex::sqr`: the square of an interval (tighter than `mul x x`). -/
def Interval.sqr (x : Interval) : Interval :=
  if 0 ≤ x.lb then ⟨x.lb * x.lb, x.ub * x.ub⟩
  else if x.ub ≤ 0 then ⟨x.ub * x.ub, x.lb * x.lb⟩
  else ⟨0, max (x.lb * x.lb) (x.ub * x.ub)⟩

/-- `ibex::pow(x, n)` for a non-negative integer exponent: `t ^ n` is
monotone for odd `n` and has the even-power shape otherwise. -/
def Interval.ipowN (x : Interval) (n : ℕ) : Interval :=
  if n = 0 then ⟨1, 1⟩
  else if n % 2 = 1 then ⟨x.lb ^ n, x.ub ^ n⟩
  else if 0 ≤ x.lb then ⟨x.lb ^ n, x.ub ^ n⟩
  else if x.ub ≤ 0 then ⟨x.ub ^ n, x.lb ^ n⟩
  else ⟨0, max (x.lb ^ n) (x.ub ^ n)⟩

/-- `ibex::Interval::operator==`: two empty intervals are equal; otherwise
the bounds are compared. -/
def Interval.ivEq (x y : Interval) : Bool :=
  (x.isEmpty && y.isEmpty) || (x.lb == y.lb && x.ub == y.ub)

/-- A `Box` is a vector of intervals; dimension `i` belongs to the variable
with box-index `i` (`Box::index` is a bijection in the source). -/
def Box := List Interval
  deriving DecidableEq, Repr

/-- `box[i]` (out-of-range reads yield a degenerate junk interval; the
source never reads out of range). -/
def Box.getI (b : Box) (i : ℕ) : Interval := List.getD b i ⟨0, 0⟩

/-- Number of dimensions. -/
def Box.dim (b : Box) : ℕ := List.length (b : List Interval)

/-- `ibex::IntervalVector::is_empty`: true iff some component is empty. -/
def Box.isEmptyB (b : Box) : Bool := List.any (b : List Interval) Interval.isEmpty

/-- `Box::set_empty`: every component becomes the empty interval. -/
def Box.setEmptyB (b : Box) : Box :=
  List.map (fun (_ : Interval) => Interval.emptyI) (b : List Interval)

/-- `Box::bisect(i)`: split dimension `i` at its midpoint. -/
def Box.bisectB (b : Box) (i : ℕ) : Box × Box :=
  let iv := b.getI i
  (List.set (b : List Interval) i ⟨iv.lb, iv.mid⟩,
   List.set (b : List Interval) i ⟨iv.mid, iv.ub⟩)

/-- The midpoint box (`Mid` in `expression_evaluator.cc`): every component
is collapsed to its midpoint. -/
def Box.midBox (b : Box) : Box :=
  List.map (fun (iv : Interval) => Interval.ofQ iv.mid) (b : List Interval)

/-- Model of `ContractorStatus`: the current box, the branching point, the
output bitset (dimensions touched by the last prune) and the set of used
constraints.  Formulas are identified by numeric ids. -/
structure ContractorStatus where
  box : Box
  branchingPoint : Int
  output : Finset ℕ
  used : Finset ℕ
  deriving DecidableEq

/-- `FormulaEvaluationResult`: the three-way verdict of a formula evaluator
on a box.  `unknown` carries the ambiguous evaluation interval (whose
diameter is compared against the precision). -/
inductive FEResult where
  | unsat : FEResult
  | valid : FEResult
  | unknown : Interval → FEResult
  deriving DecidableEq, Repr

/-- Model of a `FormulaEvaluator`: the id of its formula, the box-indices of
the formula's free variables, and the evaluation function itself. -/
structure FormulaEvaluator where
  formula : ℕ
  vars : List ℕ
  eval : Box → FEResult

/-- Is the result UNSAT?  (Used to state the `EvaluateBox` theorems.) -/
def FEResult.isUnsatR : FEResult → Bool
  | .unsat => true
  | _ => false

/-- Worker loop of `Icp::EvaluateBox` (`icp.cc` lines 85-127), threading the
`branching_candidates` accumulator through the evaluator list.  On the first
UNSAT verdict the status box is emptied, the offending formula is recorded,
and `none` is returned; UNKNOWN verdicts whose interval diameter exceeds the
precision contribute the bisectable free variables of their formula. -/
def evaluateBoxAux (box : Box) (prec : ℚ) :
    List FormulaEvaluator → ContractorStatus → Finset ℕ →
    Option (Finset ℕ) × ContractorStatus
  | [], cs, acc => (some acc, cs)
  | ev :: rest, cs, acc =>
    match ev.eval box with
    | .unsat =>
      (none, { cs with box := cs.box.setEmptyB, used := insert ev.formula cs.used })
    | .valid => evaluateBoxAux box prec rest cs acc
    | .unknown iv =>
      if prec < iv.diam then
        evaluateBoxAux box prec rest cs
          (acc ∪ (List.filter (fun v => (box.getI v).isBisectable) ev.vars).toFinset)
      else evaluateBoxAux box prec rest cs acc

/-- `Icp::EvaluateBox` (`icp.cc` lines 85-127). -/
def evaluateBox (evs : List FormulaEvaluator) (box : Box) (prec : ℚ)
    (cs : ContractorStatus) : Option (Finset ℕ) × ContractorStatus :=
  evaluateBoxAux box prec evs cs ∅

/-- The branching-candidate set described by the specification: box-indices
`d` such that some evaluator is UNKNOWN on the box with diameter above the
precision, `d` is among that evaluator's free variables, and dimension `d`
of the box is bisectable.  This is the spec-side definition compared against
`evaluateBox`. -/
def candidateSet (evs : List FormulaEvaluator) (box : Box) (prec : ℚ) : Finset ℕ :=
  (Finset.range box.dim).filter fun d =>
    evs.any fun ev =>
      (match ev.eval box with
       | .unknown iv => decide (prec < iv.diam)
       | _ => false) &&
      ev.vars.any fun v => v == d && (box.getI v).isBisectable

/-- Modelled from the spec: `FindMaxDiam` (declared in `dreal/solver/branch.h`,
whose implementation is not part of this slice) selects, among the candidate
dimensions of the bitset, a bisectable dimension of maximal diameter,
tie-breaking by smallest box-index; it reports failure when no candidate can
be bisected.  Mirrors the visible `FindMaxDiamIdx` of `icp_parallel.cc`
restricted to the bitset. -/
def findMaxDiamIn (box : Box) (bs : Finset ℕ) : Option ℕ :=
  (List.range box.dim).foldl
    (fun best i =>
      let iv := box.getI i
      if i ∈ bs ∧ iv.isBisectable ∧
          (match best with | none => (0 : ℚ) | some p => p.1) < iv.diam
      then some (iv.diam, i) else best)
    none |>.map (fun p => p.2)

/-- Modelled from the spec: `BranchMaxDiam` (`dreal/solver/branch_max_diam.h`,
implementation not in this slice).  Per spec §4.6 steps 5-6: pick the
max-diameter bisectable candidate; if none can be bisected report a
degenerate δ-SAT (`none` here, `return true` in `Icp::CheckSat`); otherwise
bisect there and push both children, the left child first when
`stack_left_box_first` holds.  The stack head is its top. -/
def branchMaxDiam (box : Box) (bs : Finset ℕ) (leftFirst : Bool)
    (stack : List (Box × Int)) : Option (List (Box × Int)) :=
  match findMaxDiamIn box bs with
  | none => none
  | some i =>
    let p := box.bisectB i
    some (if leftFirst then (p.2, (i : Int)) :: (p.1, (i : Int)) :: stack
          else (p.1, (i : Int)) :: (p.2, (i : Int)) :: stack)

/-- Modelled from the spec: `BranchGradientDescent`
(`dreal/solver/branch_gradient_descent.h`, implementation not in this
slice).  Per spec §4.6 it scores candidates by a gradient-descent heuristic
and falls back to MaxDiam when the gradient is not informative; it fails
(degenerate δ-SAT) exactly when no candidate dimension can be bisected.  The
gradient scoring itself is not in the slice, so the fallback selection is
used; note that, unlike `BranchMaxDiam`, the function does not receive the
`stack_left_box_first` flag (`icp.cc` line 220). -/
def branchGradientDescent (box : Box) (bs : Finset ℕ)
    (stack : List (Box × Int)) : Option (List (Box × Int)) :=
  match findMaxDiamIn box bs with
  | none => none
  | some i =>
    let p := box.bisectB i
    some ((p.2, (i : Int)) :: (p.1, (i : Int)) :: stack)

/-- `Config::BranchingStrategy`. -/
inductive Strategy where
  | maxDiam : Strategy
  | gradientDescent : Strategy
  deriving DecidableEq, Repr

/-- The inputs `Icp::CheckSat` closes over: the composed contractor (a
function on contractor statuses), the formula evaluators, the precision δ,
the branching strategy and the configured initial stacking policy. -/
structure IcpParams where
  prune : ContractorStatus → ContractorStatus
  evs : List FormulaEvaluator
  prec : ℚ
  strat : Strategy
  leftFirstInit : Bool

/-- Result of one iteration of the `Icp::CheckSat` loop: either the function
returns (`done`) or the loop continues with a new stack, status and
stacking flag (`next`). -/
inductive StepRes where
  | done : Bool → StepRes
  | next : List (Box × Int) → ContractorStatus → Bool → StepRes
  deriving DecidableEq

/-- One iteration of the `while (!stack.empty())` loop of `Icp::CheckSat`
(`icp.cc` lines 166-227), including the loop exit (`return false`, line
229) when the stack is empty: pop, prune, drop empty boxes, evaluate, report
δ-SAT on an empty candidate set, otherwise branch via the configured
strategy — flipping `stack_left_box_first_` only in the MaxDiam arm
(lines 209-225). -/
def icpStep (P : IcpParams) : List (Box × Int) → ContractorStatus → Bool → StepRes
  | [], _, _ => .done false
  | (b, bp) :: rest, cs, lf =>
    let cs1 := P.prune { cs with box := b, branchingPoint := bp }
    if cs1.box.isEmptyB then .next rest cs1 lf
    else
      match evaluateBox P.evs cs1.box P.prec cs1 with
      | (none, cs2) => .next rest cs2 lf
      | (some bs, cs2) =>
        if bs = ∅ then .done true
        else
          match P.strat with
          | .maxDiam =>
            match branchMaxDiam cs2.box bs lf rest with
            | none => .done true
            | some stack2 => .next stack2 cs2 (!lf)
          | .gradientDescent =>
            match branchGradientDescent cs2.box bs rest with
            | none => .done true
            | some stack2 => .next stack2 cs2 lf

/-- The `Icp::CheckSat` loop with explicit fuel (`none` = fuel exhausted;
the C++ loop simply keeps running). -/
def checkSatLoop (P : IcpParams) :
    ℕ → List (Box × Int) → ContractorStatus → Bool → Option Bool
  | 0, _, _, _ => none
  | fuel + 1, stack, cs, lf =>
    match icpStep P stack cs lf with
    | .done b => some b
    | .next stack2 cs2 lf2 => checkSatLoop P fuel stack2 cs2 lf2

/-- `Icp::CheckSat` (`icp.cc` lines 129-230): seed the stack with the
initial box and branching point `-1`, start from the configured stacking
policy, and run the loop. -/
def checkSat (P : IcpParams) (fuel : ℕ) (cs : ContractorStatus) : Option Bool :=
  checkSatLoop P fuel [(cs.box, -1)] cs P.leftFirstInit

/-- The loop state `(stack, cs, flag)` drains the stack through ordinary
`next` iterations without ever hitting a δ-SAT return: exactly the
executions on which `Icp::CheckSat` returns `false`. -/
inductive ReachesEmptyStack (P : IcpParams) :
    List (Box × Int) → ContractorStatus → Bool → Prop where
  | nil : ∀ cs lf, ReachesEmptyStack P [] cs lf
  | step : ∀ stack cs lf stack2 cs2 lf2,
      icpStep P stack cs lf = .next stack2 cs2 lf2 →
      ReachesEmptyStack P stack2 cs2 lf2 →
      ReachesEmptyStack P stack cs lf

/-- `FindMaxDiamIdx` (`icp_parallel.cc` lines 26-38): the index of the
bisectable dimension with the largest (strictly positive) diameter, `none`
for the sentinel `-1`. -/
def findMaxDiamIdx (box : Box) : Option ℕ :=
  (List.range box.dim).foldl
    (fun best i =>
      let iv := box.getI i
      if (match best with | none => (0 : ℚ) | some p => p.1) < iv.diam ∧
          iv.isBisectable
      then some (iv.diam, i) else best)
    none |>.map (fun p => p.2)

/-- `DoubleUp` (`icp_parallel.cc` lines 40-58): the first
`min (n - size) size` boxes are bisected at their max-diameter dimension
(two halves pushed; a box with no such dimension contributes nothing), the
remaining boxes are passed through unchanged. -/
def doubleUp (boxes : List Box) (n : ℕ) : List Box :=
  let k := min (n - boxes.length) boxes.length
  ((boxes.take k).foldr
    (fun b acc =>
      match findMaxDiamIdx b with
      | some i => (b.bisectB i).1 :: (b.bisectB i).2 :: acc
      | none => acc)
    []) ++ boxes.drop k

/-- The `while` loop of `FillUp` with explicit fuel (the source loop always
terminates: each round either strictly changes the list length or breaks). -/
def fillUpAux : ℕ → List Box → ℕ → List Box
  | 0, ret, _ => ret
  | fuel + 1, ret, n =>
    if ret.length < n then
      let news := doubleUp ret n
      if news.length = ret.length then ret else fillUpAux fuel news n
    else ret

/-- `FillUp` (`icp_parallel.cc` lines 60-71): repeatedly `DoubleUp` the
working set until it holds `n` boxes or a round makes no progress. -/
def fillUp (box : Box) (n : ℕ) : List Box := fillUpAux (2 * n + 2) [box] n

/-- `ParallelBranch` (`icp_parallel.cc` lines 73-102): bisect at the
max-diameter candidate; push one child on the global stack (the left child
first when `stack_left_box_first`), keep the other as the worker's next box,
and bump `number_of_boxes`.  Returns `none` when no branching point is
found. -/
def parallelBranch (bs : Finset ℕ) (leftFirst : Bool) (box : Box)
    (globalStack : List Box) : Option (Box × List Box) :=
  match findMaxDiamIn box bs with
  | none => none
  | some i =>
    let p := box.bisectB i
    if leftFirst then some (p.2, p.1 :: globalStack)
    else some (p.1, p.2 :: globalStack)

/-- The per-worker view of the shared state of `IcpParallel`: the global
box stack, the `number_of_boxes` counter, the worker's own status, its
stacking flag and its `need_to_pop` bit. -/
structure WorkerState where
  globalStack : List Box
  numBoxes : Int
  cs : ContractorStatus
  leftFirst : Bool
  needToPop : Bool
  deriving DecidableEq

/-- Outcome of one iteration of the worker loop (`Worker`,
`icp_parallel.cc` lines 127-231): the loop condition fails (`exitLoop`),
the interrupt check throws (`cancelled`), the worker publishes its id into
`found_delta_sat` and returns (`foundSat`), or the loop continues with an
updated state (`next`). -/
inductive WorkerRes where
  | exitLoop : WorkerState → WorkerRes
  | cancelled : WorkerState → WorkerRes
  | foundSat : WorkerState → WorkerRes
  | next : WorkerState → WorkerRes
  deriving DecidableEq

/-- One iteration of the parallel worker loop (`icp_parallel.cc` lines
127-231).  `checkInterrupt` models the `DREAL_CHECK_INTERRUPT` preprocessor
flag (defined only by `setup.py` for the Python package build, per the
comment at lines 129-130); `interrupted` models the process-wide
`g_interrupted` flag.  `foundDeltaSat` is the snapshot of the shared atomic
read in the loop condition. -/
def workerStep (checkInterrupt interrupted : Bool)
    (prune : ContractorStatus → ContractorStatus)
    (evs : List FormulaEvaluator) (prec : ℚ)
    (foundDeltaSat : Int) (s : WorkerState) : WorkerRes :=
  if ¬(foundDeltaSat = -1 ∧ 0 < s.numBoxes) then .exitLoop s
  else if checkInterrupt && interrupted then .cancelled s
  else
    let popped : Option (Box × List Box) :=
      if s.needToPop then
        match s.globalStack with
        | [] => none
        | b :: rest => some (b, rest)
      else some (s.cs.box, s.globalStack)
    match popped with
    | none => .next s
    | some (b, stack2) =>
      let cs1 := prune { s.cs with box := b }
      if cs1.box.isEmptyB then
        .next { s with globalStack := stack2, numBoxes := s.numBoxes - 1,
                       cs := cs1, needToPop := true }
      else
        match evaluateBox evs cs1.box prec cs1 with
        | (none, cs2) =>
          .next { s with globalStack := stack2, numBoxes := s.numBoxes - 1,
                         cs := cs2, needToPop := true }
        | (some bs, cs2) =>
          if bs = ∅ then
            .foundSat { s with globalStack := stack2, cs := cs2 }
          else
            match parallelBranch bs s.leftFirst cs2.box stack2 with
            | none => .foundSat { s with globalStack := stack2, cs := cs2 }
            | some (keep, stack3) =>
              .next { globalStack := stack3, numBoxes := s.numBoxes + 1,
                      cs := { cs2 with box := keep },
                      leftFirst := !s.leftFirst, needToPop := false }

/-- Modelled from the spec: `ContractorStatus::InplaceJoin` (declared in
`contractor_status.h`, implementation not in this slice) component-wise
merges a worker's status into the caller's: union of used constraints and
of output dimensions, hull of the boxes. -/
def inplaceJoin (a b : ContractorStatus) : ContractorStatus :=
  { a with
    box := List.zipWith
      (fun (x y : Interval) =>
        if x.isEmpty then y else if y.isEmpty then x
        else ⟨min x.lb y.lb, max x.ub y.ub⟩)
      (a.box : List Interval) (b.box : List Interval),
    output := a.output ∪ b.output,
    used := a.used ∪ b.used }

/-- `IcpParallel::CheckSat` (`icp_parallel.cc` lines 241-303) with the
concurrent worker phase abstracted as a function from the pruned status to
the final per-worker status vector and the final value of
`found_delta_sat`: prune the initial box once (returning UNSAT immediately
when it empties), run the workers, `InplaceJoin` every worker status into
the caller's, then either adopt the finder's box (SAT) or set the box empty
(UNSAT). -/
def icpParallelCheckSat (prune : ContractorStatus → ContractorStatus)
    (runWorkers : ContractorStatus → List ContractorStatus × Int)
    (cs : ContractorStatus) : Bool × ContractorStatus :=
  let cs1 := prune cs
  if cs1.box.isEmptyB then (false, cs1)
  else
    let r := runWorkers cs1
    let cs2 := r.1.foldl inplaceJoin cs1
    if 0 ≤ r.2 then
      (true, { cs2 with box := (r.1.getD r.2.toNat cs1).box })
    else
      (false, { cs2 with box := cs2.box.setEmptyB })

/-- Interval absolute value (`ibex::abs`). -/
def Interval.iabs (x : Interval) : Interval :=
  if 0 ≤ x.lb then x
  else if x.ub ≤ 0 then ⟨-x.ub, -x.lb⟩
  else ⟨0, max (-x.lb) x.ub⟩

/-- Interval minimum (`ibex::min`). -/
def Interval.imin (x y : Interval) : Interval := ⟨min x.lb y.lb, min x.ub y.ub⟩

/-- Interval maximum (`ibex::max`). -/
def Interval.imax (x y : Interval) : Interval := ⟨max x.lb y.lb, max x.ub y.ub⟩

/-- The ibex interval primitives that are not computable over ℚ (logarithm,
extended division, real-exponent and negative-integer powers).  They belong
to the external interval library — an external collaborator per the spec —
so they are kept abstract; every computation in the theorems below avoids
them. -/
structure IntervalOps where
  log : Interval → Interval
  div : Interval → Interval → Interval
  powReal : Interval → ℚ → Interval
  powItv : Interval → Interval → Interval
  powNegInt : Interval → ℤ → Interval

/-- Modelled from the spec: `is_integer` (`dreal/util/math.h`, not in this
slice) tests whether a double holds an integral value. -/
def isIntegerQ (q : ℚ) : Bool := q.den == 1

/-- `pow(first, static_cast<int>(point))`: integer powers, concrete for
non-negative exponents, delegated to the external library otherwise. -/
def intPow (ops : IntervalOps) (x : Interval) (n : ℤ) : Interval :=
  if 0 ≤ n then x.ipowN n.toNat else ops.powNegInt x n

/-- `ExpressionEvaluator::VisitPow(e1, e2, box)` after both arguments have
been evaluated (`expression_evaluator.cc` lines 102-123): a non-empty
degenerate exponent at an integer point dispatches to `sqr` (for 2) or the
integer-power extension, a degenerate non-integer point to the real-exponent
power, anything else to the general interval-exponent power. -/
def visitPowI (ops : IntervalOps) (first second : Interval) : Interval :=
  if second.isDegenerated && !second.isEmpty then
    let point := second.lb
    if isIntegerQ point then
      if point == 2 then first.sqr
      else intPow ops first point.num
    else ops.powReal first point
  else ops.powItv first second

mutual

/-- The expression fragment handled by this development, mirroring the
normalized cells the evaluator consumes: constants, variables (by box
index), n-ary additions `c + Σ coeff·eᵢ`, n-ary multiplications
`c · Π baseᵢ^expᵢ`, division, log, abs, pow, min and max. -/
inductive Expr where
  | constE : ℚ → Expr
  | varE : ℕ → Expr
  | addE : ℚ → AddArgs → Expr
  | mulE : ℚ → MulArgs → Expr
  | divE : Expr → Expr → Expr
  | logE : Expr → Expr
  | absE : Expr → Expr
  | powE : Expr → Expr → Expr
  | minE : Expr → Expr → Expr
  | maxE : Expr → Expr → Expr

/-- The expression-to-coefficient list of a normalized addition cell. -/
inductive AddArgs where
  | nilA : AddArgs
  | consA : Expr → ℚ → AddArgs → AddArgs

/-- The base-to-exponent list of a normalized multiplication cell. -/
inductive MulArgs where
  | nilM : MulArgs
  | consM : Expr → Expr → MulArgs → MulArgs

end

mutual

/-- `ExpressionEvaluator::Visit` (`expression_evaluator.cc`): interval
evaluation of an expression on a box. -/
def visit (ops : IntervalOps) (b : Box) : Expr → Interval
  | .constE c => Interval.ofQ c
  | .varE v => b.getI v
  | .addE c ts => visitAdd ops b (Interval.ofQ c) ts
  | .mulE c fs => visitMul ops b (Interval.ofQ c) fs
  | .divE e1 e2 => ops.div (visit ops b e1) (visit ops b e2)
  | .logE e => ops.log (visit ops b e)
  | .absE e => (visit ops b e).iabs
  | .powE e1 e2 => visitPowI ops (visit ops b e1) (visit ops b e2)
  | .minE e1 e2 => (visit ops b e1).imin (visit ops b e2)
  | .maxE e1 e2 => (visit ops b e1).imax (visit ops b e2)

/-- The `std::accumulate` of `VisitAddition`: `acc + Visit(e)·coeff`. -/
def visitAdd (ops : IntervalOps) (b : Box) (acc : Interval) : AddArgs → Interval
  | .nilA => acc
  | .consA e k rest =>
    visitAdd ops b (acc.add ((visit ops b e).mul (Interval.ofQ k))) rest

/-- The `std::accumulate` of `VisitMultiplication`:
`acc * VisitPow(base, exponent)`. -/
def visitMul (ops : IntervalOps) (b : Box) (acc : Interval) : MulArgs → Interval
  | .nilM => acc
  | .consM base expo rest =>
    visitMul ops b
      (acc.mul (visitPowI ops (visit ops b base) (visit ops b expo))) rest

end

mutual

/-- Does box-index `i` occur free in the expression? -/
def freeIn (i : ℕ) : Expr → Bool
  | .constE _ => false
  | .varE j => j == i
  | .addE _ ts => freeInA i ts
  | .mulE _ fs => freeInM i fs
  | .divE a b => freeIn i a || freeIn i b
  | .logE a => freeIn i a
  | .absE a => freeIn i a
  | .powE a b => freeIn i a || freeIn i b
  | .minE a b => freeIn i a || freeIn i b
  | .maxE a b => freeIn i a || freeIn i b

/-- `freeIn` over addition arguments. -/
def freeInA (i : ℕ) : AddArgs → Bool
  | .nilA => false
  | .consA e _ rest => freeIn i e || freeInA i rest

/-- `freeIn` over multiplication arguments. -/
def freeInM (i : ℕ) : MulArgs → Bool
  | .nilM => false
  | .consM b e rest => freeIn i b || freeIn i e || freeInM i rest

end

/-- Binary sum `u + v` in normalized-cell form. -/
def eAdd2 (u v : Expr) : Expr := .addE 0 (.consA u 1 (.consA v 1 .nilA))

/-- Binary product `u · v` in normalized-cell form. -/
def eMul2 (u v : Expr) : Expr :=
  .mulE 1 (.consM u (.constE 1) (.consM v (.constE 1) .nilM))

/-- Scalar multiple `k · u` in normalized-cell form. -/
def eScale (k : ℚ) (u : Expr) : Expr := .addE 0 (.consA u k .nilA)

/-- Difference `u - v` in normalized-cell form. -/
def eSub (u v : Expr) : Expr := .addE 0 (.consA u 1 (.consA v (-1) .nilA))

mutual

/-- Modelled from the spec: `Expression::Differentiate` (implemented in
`dreal/symbolic`, not in this slice), §4.1 of the spec: the standard rules
for the elementary operations; `abs`, `min` and `max` are differentiable
only with respect to variables that do not occur free in them (`none`
models the NotDifferentiable failure); `Pow` splits into the
constant-exponent, constant-base and general cases. -/
def diffE (i : ℕ) : Expr → Option Expr
  | .constE _ => some (.constE 0)
  | .varE j => some (.constE (if j = i then 1 else 0))
  | .addE _ ts => do pure (.addE 0 (← diffA i ts))
  | .mulE c fs => diffM i c fs
  | .divE a b => do
    let da ← diffE i a
    let db ← diffE i b
    pure (.divE (eSub (eMul2 da b) (eMul2 a db)) (.powE b (.constE 2)))
  | .logE a => do pure (.divE (← diffE i a) a)
  | .absE a => if freeIn i (.absE a) then none else some (.constE 0)
  | .powE b e => diffPow i b e
  | .minE a b => if freeIn i (.minE a b) then none else some (.constE 0)
  | .maxE a b => if freeIn i (.maxE a b) then none else some (.constE 0)
termination_by e => 2 * sizeOf e
decreasing_by all_goals (simp_wf; try omega)

/-- Termwise differentiation of addition arguments. -/
def diffA (i : ℕ) : AddArgs → Option AddArgs
  | .nilA => some .nilA
  | .consA e k rest => do pure (.consA (← diffE i e) k (← diffA i rest))
termination_by ts => 2 * sizeOf ts
decreasing_by all_goals (simp_wf; try omega)

/-- Product rule over the factors of a multiplication cell:
`(f·R)' = f'·R + f·R'`. -/
def diffM (i : ℕ) (c : ℚ) : MulArgs → Option Expr
  | .nilM => some (.constE 0)
  | .consM b e rest => do
    let df ← diffPow i b e
    let dr ← diffM i c rest
    pure (eAdd2 (eMul2 df (.mulE c rest)) (eMul2 (.powE b e) dr))
termination_by fs => 2 * sizeOf fs
decreasing_by all_goals (simp_wf; try omega)

/-- The three `Pow` differentiation policies of spec §4.1. -/
def diffPow (i : ℕ) (b e : Expr) : Option Expr :=
  match b, e with
  | b2, .constE n => do
    let db ← diffE i b2
    pure (eScale n (eMul2 (.powE b2 (.constE (n - 1))) db))
  | .constE c, e2 => do
    let de ← diffE i e2
    pure (eMul2 (eMul2 (.logE (.constE c)) (.powE (.constE c) e2)) de)
  | b2, e2 => do
    let db ← diffE i b2
    let de ← diffE i e2
    pure (eMul2 (.powE b2 (eSub e2 (.constE 1)))
      (eAdd2 (eMul2 e2 db) (eMul2 (.logE b2) (eMul2 b2 de))))
termination_by 2 * sizeOf b + 2 * sizeOf e + 1
decreasing_by all_goals (simp_wf; try omega)

end

/-- Accumulating interval sum with failing terms, the shape of the `ret +=`
loops of `Taylor1Eval`/`Taylor2Eval`. -/
def accumTerms {α : Type} (g : α → Option Interval) (a : Interval) :
    List α → Option Interval
  | [] => some a
  | i :: rest =>
    match g i with
    | none => none
    | some v => accumTerms g (a.add v) rest

/-- One first-order term of `Taylor1Eval`: `(∂f/∂xᵢ)([x]) · ([xᵢ] − x⁰ᵢ)`
— the derivative is evaluated over the whole box `x`
(`expression_evaluator.cc` line 249). -/
def tay1Term (ops : IntervalOps) (f : Expr) (x x0 : Box) (i : ℕ) :
    Option Interval :=
  (diffE i f).map fun d => (visit ops x d).mul ((x.getI i).sub (x0.getI i))

/-- `Taylor1Eval` (`expression_evaluator.cc` lines 237-252). -/
def taylor1Eval (ops : IntervalOps) (f : Expr) (x : Box) : Option Interval :=
  let x0 := x.midBox
  accumTerms (tay1Term ops f x x0) (visit ops x0 f) (List.range x.dim)

/-- One first-order term of `Taylor2Eval`: `(∂f/∂xᵢ)(x⁰) · ([xᵢ] − x⁰ᵢ)`
— the derivative is evaluated at the midpoint box `x0`
(`expression_evaluator.cc` line 265), unlike in `Taylor1Eval`. -/
def tay2FirstTerm (ops : IntervalOps) (f : Expr) (x x0 : Box) (i : ℕ) :
    Option Interval :=
  (diffE i f).map fun d => (visit ops x0 d).mul ((x.getI i).sub (x0.getI i))

/-- One second-order term of `Taylor2Eval` (`expression_evaluator.cc` lines
270-285): `(∂²f/∂xᵢ∂xⱼ)([x]) · ([xᵢ]−x⁰ᵢ) · ([xⱼ]−x⁰ⱼ)`, halved on the
diagonal. -/
def tay2SecondTerm (ops : IntervalOps) (f : Expr) (x x0 : Box)
    (p : ℕ × ℕ) : Option Interval := do
  let d1 ← diffE p.1 f
  let d2 ← diffE p.2 d1
  if p.1 = p.2 then
    pure ((((Interval.ofQ (1/2)).mul (visit ops x d2)).mul
      ((x.getI p.1).sub (x0.getI p.1))).mul ((x.getI p.2).sub (x0.getI p.2)))
  else
    pure (((visit ops x d2).mul
      ((x.getI p.1).sub (x0.getI p.1))).mul ((x.getI p.2).sub (x0.getI p.2)))

/-- The index pairs `(i, j)` with `i ≤ j < n`, in the order of the nested
loops of `Taylor2Eval`. -/
def pairsUpper (n : ℕ) : List (ℕ × ℕ) :=
  (List.range n).flatMap fun i => (List.drop i (List.range n)).map fun j => (i, j)

/-- `Taylor2Eval` (`expression_evaluator.cc` lines 254-287): the
first-order loop (derivatives at the midpoint box), then the second-order
loop. -/
def taylor2Eval (ops : IntervalOps) (f : Expr) (x : Box) : Option Interval :=
  let x0 := x.midBox
  match accumTerms (tay2FirstTerm ops f x x0) (visit ops x0 f)
      (List.range x.dim) with
  | none => none
  | some r1 => accumTerms (tay2SecondTerm ops f x x0) r1 (pairsUpper x.dim)

/-- The first-order Taylor form with derivatives taken at the midpoint box:
`f(x⁰) + Σᵢ (∂f/∂xᵢ)(x⁰) · ([xᵢ] − x⁰ᵢ)`. -/
def taylor1AtMid (ops : IntervalOps) (f : Expr) (x : Box) : Option Interval :=
  let x0 := x.midBox
  accumTerms (tay2FirstTerm ops f x x0) (visit ops x0 f) (List.range x.dim)

/-- The second-order correction of `Taylor2Eval` summed on its own:
`Σᵢ Σⱼ≥ᵢ wᵢⱼ (∂²f/∂xᵢ∂xⱼ)([x]) · ([xᵢ]−x⁰ᵢ) · ([xⱼ]−x⁰ⱼ)` with `wᵢᵢ = ½`
and `wᵢⱼ = 1` off the diagonal. -/
def taylor2SecondOrderSum (ops : IntervalOps) (f : Expr) (x : Box) :
    Option Interval :=
  accumTerms (tay2SecondTerm ops f x x.midBox) (Interval.ofQ 0)
    (pairsUpper x.dim)

/-- The claim's reading of `Taylor2Eval`: `Taylor1Eval` (whose first-order
derivatives are evaluated over the whole box) plus the second-order
correction. -/
def taylor2ClaimFormula (ops : IntervalOps) (f : Expr) (x : Box) :
    Option Interval := do
  let t1 ← taylor1Eval ops f x
  let s2 ← taylor2SecondOrderSum ops f x
  pure (t1.add s2)

/-- The corrected reading: the first-order part of `Taylor2Eval` evaluates
the derivatives at the midpoint box. -/
def taylor2MidFormula (ops : IntervalOps) (f : Expr) (x : Box) :
    Option Interval := do
  let t1 ← taylor1AtMid ops f x
  let s2 ← taylor2SecondOrderSum ops f x
  pure (t1.add s2)

/-- The set of dimensions on which the old and the contracted interval
vector differ under `ibex::Interval::operator==` semantics. -/
def changedDims (oldIv newIv : Box) : Finset ℕ :=
  (Finset.range oldIv.dim).filter fun i =>
    ¬ ((oldIv.getI i).ivEq (newIv.getI i) = true)

/-- `ContractorIbexPolytope::Prune` (`contractor_ibex_polytope.cc` lines
89-119) with the external `ibex::CtcPolytopeHull::contract` call abstracted
as the function `contract`: contract the interval vector in place; when the
result is empty fill the whole output bitset, otherwise add exactly the
dimensions whose interval differs from before; when anything changed record
all of the contractor's formulas as used constraints. -/
def prunePolytope (contract : Box → Box) (formulas : Finset ℕ)
    (cs : ContractorStatus) : ContractorStatus :=
  let oldIv := cs.box
  let iv := contract oldIv
  if iv.isEmptyB then
    { cs with box := iv,
              output := cs.output ∪ Finset.range iv.dim,
              used := cs.used ∪ formulas }
  else
    let ch := changedDims oldIv iv
    { cs with box := iv,
              output := cs.output ∪ ch,
              used := if ch = ∅ then cs.used else cs.used ∪ formulas }

/-- Model of a constructed `ContractorIbexFwdbwd` (the per-thread inner
contractor): only the observations the accessors expose matter here. -/
structure MtCtc where
  input : Finset ℕ
  isDummy : Bool
  deriving DecidableEq

/-- The mutable state of `ContractorIbexFwdbwdMt` (`contractor_ibex_fwdbwd_mt.cc`,
lazily-populated variant): the `ctc_ready_` flag vector and the `ctcs_`
slot vector, both sized to the configured job count. -/
structure MtState where
  ready : List Bool
  ctcs : List (Option MtCtc)
  deriving DecidableEq

/-- `ContractorIbexFwdbwdMt::input` (lines 215-218): guarded by
`DREAL_ASSERT(ctc_ready_[0])`; `none` models the tripped debug assertion. -/
def mtInput (st : MtState) : Option (Finset ℕ) :=
  if st.ready.getD 0 false then (st.ctcs.getD 0 none).map (fun c => c.input)
  else none

/-- `ContractorIbexFwdbwdMt::mutable_input` (lines 220-223): same guard,
same slot-0 read. -/
def mtMutableInput (st : MtState) : Option (Finset ℕ) :=
  if st.ready.getD 0 false then (st.ctcs.getD 0 none).map (fun c => c.input)
  else none

/-- `ContractorIbexFwdbwdMt::is_dummy` (lines 250-253): guarded by
`DREAL_ASSERT(ctc_ready_[0])`. -/
def mtIsDummy (st : MtState) : Option Bool :=
  if st.ready.getD 0 false then (st.ctcs.getD 0 none).map (fun c => c.isDummy)
  else none

/-- `ContractorIbexFwdbwdMt::GetCtcOrCreate` (lines 225-237) for the thread
with id `tid`: return the existing slot, or construct a new inner contractor
(`mk`, standing for `new ContractorIbexFwdbwd(f_, box, config_)`), store it
and set the ready flag. -/
def getCtcOrCreate (mk : Box → MtCtc) (st : MtState) (tid : ℕ) (box : Box) :
    MtCtc × MtState :=
  if st.ready.getD tid false then
    match st.ctcs.getD tid none with
    | some c => (c, st)
    | none => (mk box, st)
  else
    let c := mk box
    (c, { ready := st.ready.set tid true, ctcs := st.ctcs.set tid (some c) })

/-- The state effect of `ContractorIbexFwdbwdMt::Prune` (lines 239-244) as
compiled in release mode, where `DREAL_ASSERT` is a no-op: the calling
thread materializes its slot via `GetCtcOrCreate` and delegates to the inner
contractor (whose own pruning is external to this slice). -/
def mtPruneRelease (mk : Box → MtCtc) (st : MtState) (tid : ℕ)
    (cs : ContractorStatus) : MtState :=
  (getCtcOrCreate mk st tid cs.box).2

/-- The status `Icp::CheckSat` carries into the prune of one iteration:
the popped box and branching point installed in the contractor status. -/
def icpPruned (P : IcpParams) (b : Box) (bp : Int) (cs : ContractorStatus) :
    ContractorStatus :=
  P.prune { cs with box := b, branchingPoint := bp }

/-- Does the worker-loop iteration end in the cancellation throw? -/
def WorkerRes.isCancelledW : WorkerRes → Bool
  | .cancelled _ => true
  | _ => false

/-- An `IntervalOps` instance whose abstract members are never consulted by
the concrete computations below (they return a junk point interval). -/
def opsZero : IntervalOps :=
  { log := fun _ => ⟨0, 0⟩, div := fun _ _ => ⟨0, 0⟩,
    powReal := fun _ _ => ⟨0, 0⟩, powItv := fun _ _ => ⟨0, 0⟩,
    powNegInt := fun _ _ => ⟨0, 0⟩ }

/-- The expression `x₀²`. -/
def fC6 : Expr := .powE (.varE 0) (.constE 2)

/-- The box `x₀ ∈ [0, 2]`. -/
def xC6 : Box := [Interval.mk 0 2]

/-- The box `x₀ ∈ [0, 4]`. -/
def bEx : Box := [Interval.mk 0 4]

/-- A fresh contractor status over `bEx`. -/
def csEx : ContractorStatus :=
  { box := bEx, branchingPoint := -1, output := ∅, used := ∅ }

/-- A formula evaluator that always answers UNKNOWN with the unit interval
(diameter 1, above the precision 1/100 used below). -/
def evEx : FormulaEvaluator :=
  { formula := 0, vars := [0], eval := fun _ => .unknown ⟨0, 1⟩ }

/-- ICP parameters with the identity contractor, the single evaluator
`evEx`, precision 1/100 and the GradientDescent branching strategy. -/
def pGD : IcpParams :=
  { prune := fun c => c, evs := [evEx], prec := 1/100,
    strat := .gradientDescent, leftFirstInit := true }

/-- The same parameters under the MaxDiam branching strategy. -/
def pMD : IcpParams :=
  { prune := fun c => c, evs := [evEx], prec := 1/100,
    strat := .maxDiam, leftFirstInit := true }

/-- Parameters with no formula evaluators at all (every box is δ-SAT). -/
def pNoEvs : IcpParams :=
  { prune := fun c => c, evs := [], prec := 1,
    strat := .maxDiam, leftFirstInit := true }

/-- A worker-state snapshot: empty global stack, one box in flight. -/
def sEx : WorkerState :=
  { globalStack := [], numBoxes := 1, cs := csEx,
    leftFirst := true, needToPop := true }

/-- A contractor status whose box is already empty (for the polytope
`Prune` frame counterexample). -/
def csEmptyIn : ContractorStatus :=
  { box := [Interval.mk 1 0], branchingPoint := -1, output := ∅, used := ∅ }

lemma add_assocI (x y z : Interval) : (x.add y).add z = x.add (y.add z) := by
  simp only [Interval.add, Interval.mk.injEq]
  exact ⟨add_assoc _ _ _, add_assoc _ _ _⟩

lemma add_zeroI (x : Interval) : x.add (Interval.ofQ 0) = x := by
  obtain ⟨l, u⟩ := x
  simp [Interval.add, Interval.ofQ]

lemma zero_addI (x : Interval) : (Interval.ofQ 0).add x = x := by
  obtain ⟨l, u⟩ := x
  simp [Interval.add, Interval.ofQ]

lemma accumTerms_shift {α : Type} (g : α → Option Interval) :
    ∀ (l : List α) (a : Interval),
      accumTerms g a l =
        (accumTerms g (Interval.ofQ 0) l).map (fun s => a.add s) := by
  intro l
  induction l with
  | nil => intro a; simp [accumTerms, add_zeroI]
  | cons i l ih =>
    intro a
    cases hg : g i with
    | none => simp [accumTerms, hg]
    | some v =>
      simp only [accumTerms, hg]
      rw [zero_addI, ih (a.add v), ih v]
      cases accumTerms g (Interval.ofQ 0) l with
      | none => rfl
      | some s => simp [add_assocI]

/-- C6 (amended): `Taylor2Eval` is the midpoint-derivative first-order form
plus the second-order correction: `Taylor2Eval(f,[x]) = f(x⁰) +
Σᵢ (∂f/∂xᵢ)(x⁰)·([xᵢ]−x⁰ᵢ) + Σᵢ Σⱼ≥ᵢ wᵢⱼ (∂²f/∂xᵢ∂xⱼ)([x])·([xᵢ]−x⁰ᵢ)·([xⱼ]−x⁰ⱼ)`
with `wᵢᵢ = ½` and `wᵢⱼ = 1` for `i < j`; in particular the first-order
derivatives are evaluated at the midpoint box `x⁰ = Mid([x])`, not over the
whole box `[x]` as in `Taylor1Eval`. -/
theorem taylor2Eval_eq_midFormula (ops : IntervalOps) (f : Expr) (x : Box) :
    taylor2Eval ops f x = taylor2MidFormula ops f x := by
  unfold taylor2Eval taylor2MidFormula taylor1AtMid taylor2SecondOrderSum
  cases h1 : accumTerms (tay2FirstTerm ops f x x.midBox) (visit ops x.midBox f)
      (List.range x.dim) with
  | none => simp [h1, Option.bind]
  | some r1 =>
    simp only [h1, Option.bind_eq_bind, Option.some_bind]
    rw [accumTerms_shift]
    cases accumTerms (tay2SecondTerm ops f x x.midBox) (Interval.ofQ 0)
        (pairsUpper x.dim) with
    | none => rfl
    | some s => rfl

set_option maxRecDepth 100000 in
/-- C6 (counterexample): on `f = x₀²` over the box `[0, 2]` the claimed
identity `Taylor2Eval = Taylor1Eval + second-order correction` fails:
`Taylor2Eval` gives `[-2, 4]` while the claimed right-hand side gives
`[-4, 6]`, because `Taylor2Eval` evaluates its first-order derivatives at
the midpoint box while `Taylor1Eval` evaluates them over the whole box. -/
theorem taylor2_claim_false :
    taylor2Eval opsZero fC6 xC6 ≠ taylor2ClaimFormula opsZero fC6 xC6 := by
  with_unfolding_all decide

/-- C9 (code evidence): `FillUp` on the non-empty degenerate box `[1, 1]`
with target 2 returns the empty list — the box is dropped entirely, so the
parallel engine's initial seeding discards every point of it (and the
worker loop then reports UNSAT unconditionally). -/
theorem fillUp_drops_box :
    fillUp [Interval.mk 1 1] 2 = [] ∧
    Box.isEmptyB [Interval.mk 1 1] = false := by
  with_unfolding_all decide

/-- C5 (amendment): the worker-loop interrupt gate exists only when the
code is compiled with `DREAL_CHECK_INTERRUPT` (the Python-package build):
with that flag an active iteration that observes `g_interrupted` throws the
cancellation error; without it the iteration never cancels, whatever the
flag's value. -/
theorem worker_interrupt_gate :
    (∀ (prune : ContractorStatus → ContractorStatus)
       (evs : List FormulaEvaluator) (prec : ℚ) (s : WorkerState),
       0 < s.numBoxes →
       workerStep true true prune evs prec (-1) s = .cancelled s) ∧
    (∀ (prune : ContractorStatus → ContractorStatus)
       (evs : List FormulaEvaluator) (prec : ℚ) (interrupted : Bool)
       (found : Int) (s : WorkerState),
       (workerStep false interrupted prune evs prec found s).isCancelledW
         = false) := by
  constructor
  · intro prune evs prec s hn
    simp [workerStep, hn]
  · intro prune evs prec interrupted found s
    simp only [workerStep, Bool.false_and, Bool.false_eq_true, if_false]
    repeat' split
    all_goals rfl

/-- C5 (witness): with `DREAL_CHECK_INTERRUPT` compiled in, the concrete
active worker state cancels as soon as the interrupted flag is up. -/
theorem worker_interrupt_gate_witness :
    workerStep true true (fun c => c) [] 1 (-1) sEx = .cancelled sEx :=
  worker_interrupt_gate.1 (fun c => c) [] 1 sEx (by decide)

/-- C5 (counterexample): in the default build (`DREAL_CHECK_INTERRUPT` not
defined) a worker iteration with the interrupted flag raised, an active box
count and no δ-SAT yet does not cancel — it simply continues (here: spins
on the empty global stack). -/
theorem worker_interrupt_claim_false :
    workerStep false true (fun c => c) [] 1 (-1) sEx = .next sEx ∧
    (workerStep false true (fun c => c) [] 1 (-1) sEx).isCancelledW
      = false := by
  with_unfolding_all decide

lemma findMaxDiamIn_none (box : Box) (bs : Finset ℕ)
    (h : ∀ i ∈ bs, (box.getI i).isBisectable = false) :
    findMaxDiamIn box bs = none := by
  unfold findMaxDiamIn
  suffices hfold : ∀ l : List ℕ,
      (l.foldl
        (fun best i =>
          let iv := box.getI i
          if i ∈ bs ∧ iv.isBisectable ∧
              (match best with | none => (0 : ℚ) | some p => p.1) < iv.diam
          then some (iv.diam, i) else best)
        none) = none by
    rw [hfold]
    rfl
  intro l
  induction l with
  | nil => rfl
  | cons i l ih =>
    have hc : ¬(i ∈ bs ∧ (box.getI i).isBisectable = true ∧
        (0 : ℚ) < (box.getI i).diam) := by
      rintro ⟨h1, h2, _⟩
      rw [h i h1] at h2
      exact Bool.false_ne_true h2
    simp only [List.foldl_cons, if_neg hc]
    exact ih

lemma branchMaxDiam_none (box : Box) (bs : Finset ℕ) (lf : Bool)
    (stack : List (Box × Int))
    (h : ∀ i ∈ bs, (box.getI i).isBisectable = false) :
    branchMaxDiam box bs lf stack = none := by
  unfold branchMaxDiam
  rw [findMaxDiamIn_none box bs h]

lemma branchGradientDescent_none (box : Box) (bs : Finset ℕ)
    (stack : List (Box × Int))
    (h : ∀ i ∈ bs, (box.getI i).isBisectable = false) :
    branchGradientDescent box bs stack = none := by
  unfold branchGradientDescent
  rw [findMaxDiamIn_none box bs h]

lemma icpStep_done_false {P : IcpParams} {st : List (Box × Int)}
    {cs : ContractorStatus} {lf : Bool}
    (h : icpStep P st cs lf = .done false) : st = [] := by
  rcases st with _ | ⟨⟨b, bp⟩, rest⟩
  · rfl
  · exfalso
    simp only [icpStep] at h
    split at h
    · exact StepRes.noConfusion h
    · split at h
      · exact StepRes.noConfusion h
      · split at h
        · exact Bool.noConfusion (StepRes.done.inj h)
        · split at h
          · split at h
            · exact Bool.noConfusion (StepRes.done.inj h)
            · exact StepRes.noConfusion h
          · split at h
            · exact Bool.noConfusion (StepRes.done.inj h)
            · exact StepRes.noConfusion h

/-- C1: verdicts of the sequential `Icp::CheckSat` loop.  (a) When the
pruned box is non-empty and `EvaluateBox` returns an empty
branching-candidate bitset, the loop returns δ-SAT (`true`) at once.
(b) When the candidate set is non-empty but no candidate dimension of the
current box is bisectable, branching fails under either strategy and the
loop returns `true` (degenerate δ-SAT).  (c) The loop returns `false`
(UNSAT, for some fuel) exactly when the iteration drains the stack to empty
without ever leaving the loop — i.e. without either δ-SAT case firing. -/
theorem icp_checkSat_verdicts (P : IcpParams) :
    (∀ (fuel : ℕ) (b : Box) (bp : Int) (rest : List (Box × Int))
       (cs : ContractorStatus) (lf : Bool) (cs2 : ContractorStatus),
       (icpPruned P b bp cs).box.isEmptyB = false →
       evaluateBox P.evs (icpPruned P b bp cs).box P.prec (icpPruned P b bp cs)
         = (some ∅, cs2) →
       checkSatLoop P (fuel + 1) ((b, bp) :: rest) cs lf = some true) ∧
    (∀ (fuel : ℕ) (b : Box) (bp : Int) (rest : List (Box × Int))
       (cs : ContractorStatus) (lf : Bool) (bs : Finset ℕ)
       (cs2 : ContractorStatus),
       (icpPruned P b bp cs).box.isEmptyB = false →
       evaluateBox P.evs (icpPruned P b bp cs).box P.prec (icpPruned P b bp cs)
         = (some bs, cs2) →
       bs ≠ ∅ →
       (∀ i ∈ bs, (cs2.box.getI i).isBisectable = false) →
       checkSatLoop P (fuel + 1) ((b, bp) :: rest) cs lf = some true) ∧
    (∀ (st : List (Box × Int)) (cs : ContractorStatus) (lf : Bool),
       (∃ fuel, checkSatLoop P fuel st cs lf = some false) ↔
       ReachesEmptyStack P st cs lf) := by
  refine ⟨?_, ?_, ?_⟩
  · intro fuel b bp rest cs lf cs2 hne hev
    have hstep : icpStep P ((b, bp) :: rest) cs lf = .done true := by
      simp only [icpPruned] at hne hev
      simp only [icpStep]
      rw [hne, hev]
      simp
    simp [checkSatLoop, hstep]
  · intro fuel b bp rest cs lf bs cs2 hne hev hbs hnb
    have hstep : icpStep P ((b, bp) :: rest) cs lf = .done true := by
      simp only [icpPruned] at hne hev
      simp only [icpStep]
      rw [hne, hev]
      simp only [Bool.false_eq_true, if_false, if_neg hbs]
      cases P.strat with
      | maxDiam => rw [branchMaxDiam_none cs2.box bs lf rest hnb]
      | gradientDescent => rw [branchGradientDescent_none cs2.box bs rest hnb]
    simp [checkSatLoop, hstep]
  · intro st cs lf
    constructor
    · rintro ⟨fuel, hf⟩
      induction fuel generalizing st cs lf with
      | zero => simp [checkSatLoop] at hf
      | succ n ih =>
        rw [checkSatLoop] at hf
        cases hs : icpStep P st cs lf with
        | done b =>
          rw [hs] at hf
          have hb : b = false := by
            simpa using hf
          rw [hb] at hs
          rw [icpStep_done_false hs]
          exact .nil cs lf
        | next st2 cs2 lf2 =>
          rw [hs] at hf
          exact .step st cs lf st2 cs2 lf2 hs (ih st2 cs2 lf2 (by simpa using hf))
    · intro hr
      induction hr with
      | nil cs1 lf1 =>
        exact ⟨1, by simp [checkSatLoop, icpStep]⟩
      | step st1 cs1 lf1 st2 cs2 lf2 hs _ ih =>
        obtain ⟨fuel, hf⟩ := ih
        exact ⟨fuel + 1, by rw [checkSatLoop, hs]; exact hf⟩

/-- C1 (witness): with no formula evaluators, every non-empty pruned box
yields an empty candidate set, so one iteration reports δ-SAT. -/
theorem icp_checkSat_verdicts_witness :
    checkSatLoop pNoEvs 1 [(bEx, -1)] csEx true = some true :=
  (icp_checkSat_verdicts pNoEvs).1 0 bEx (-1) [] csEx true
    (icpPruned pNoEvs bEx (-1) csEx)
    (by with_unfolding_all decide) (by with_unfolding_all decide)

/-- C3 (amended): after a successful branching step of the sequential ICP
loop, the `stack_left_box_first` flag is flipped under the MaxDiam strategy
but left unchanged under the GradientDescent strategy (`icp.cc` lines
209-225: the flip statement exists only in the MaxDiam arm). -/
theorem icp_branch_flag_flip (P : IcpParams) (b : Box) (bp : Int)
    (rest : List (Box × Int)) (cs : ContractorStatus) (lf : Bool)
    (bs : Finset ℕ) (cs2 : ContractorStatus) (st2 : List (Box × Int))
    (cs3 : ContractorStatus) (lf2 : Bool)
    (hne : (icpPruned P b bp cs).box.isEmptyB = false)
    (hev : evaluateBox P.evs (icpPruned P b bp cs).box P.prec
      (icpPruned P b bp cs) = (some bs, cs2))
    (hbs : bs ≠ ∅)
    (hstep : icpStep P ((b, bp) :: rest) cs lf = .next st2 cs3 lf2) :
    (P.strat = .maxDiam → lf2 = !lf) ∧
    (P.strat = .gradientDescent → lf2 = lf) := by
  simp only [icpPruned] at hne hev
  simp only [icpStep] at hstep
  rw [hne, hev] at hstep
  simp only [Bool.false_eq_true, if_false, if_neg hbs] at hstep
  cases hstrat : P.strat with
  | maxDiam =>
    rw [hstrat] at hstep
    refine ⟨fun _ => ?_, fun hgd => Strategy.noConfusion hgd⟩
    cases hbr : branchMaxDiam cs2.box bs lf rest with
    | none =>
      simp only [hbr] at hstep
      exact StepRes.noConfusion hstep
    | some stack2 =>
      simp only [hbr] at hstep
      exact ((StepRes.next.inj hstep).2.2).symm
  | gradientDescent =>
    rw [hstrat] at hstep
    refine ⟨fun hmd => Strategy.noConfusion hmd, fun _ => ?_⟩
    cases hbr : branchGradientDescent cs2.box bs rest with
    | none =>
      simp only [hbr] at hstep
      exact StepRes.noConfusion hstep
    | some stack2 =>
      simp only [hbr] at hstep
      exact ((StepRes.next.inj hstep).2.2).symm

set_option maxRecDepth 10000 in
/-- C3 (counterexample): a concrete branching step under the
GradientDescent strategy — starting with `stack_left_box_first = true` the
box `[0, 4]` is bisected into the two children, yet the resulting flag is
still `true`: it was not flipped. -/
theorem branch_flag_claim_false :
    icpStep pGD [(bEx, -1)] csEx true =
      .next [([Interval.mk 2 4], 0), ([Interval.mk 0 2], 0)] csEx true ∧
    (true : Bool) ≠ !true := by
  with_unfolding_all decide

set_option maxRecDepth 10000 in
/-- C3 (witness): the amended flag behaviour at the concrete
GradientDescent instance of the counterexample. -/
theorem icp_branch_flag_flip_witness :
    (pGD.strat = .maxDiam → (true : Bool) = !true) ∧
    (pGD.strat = .gradientDescent → (true : Bool) = true) :=
  icp_branch_flag_flip pGD bEx (-1) [] csEx true {0} csEx
    [([Interval.mk 2 4], 0), ([Interval.mk 0 2], 0)] csEx true
    (by with_unfolding_all decide) (by with_unfolding_all decide)
    (by with_unfolding_all decide) (by with_unfolding_all decide)

lemma isBisectable_lt_dim (b : Box) (d : ℕ)
    (h : (b.getI d).isBisectable = true) : d < b.dim := by
  by_contra hlt
  rw [Box.getI, List.getD_eq_default _ _ (Nat.le_of_not_lt hlt)] at h
  exact Bool.noConfusion h

lemma evaluateBoxAux_no_unsat (box : Box) (prec : ℚ) :
    ∀ (evs : List FormulaEvaluator) (cs : ContractorStatus) (acc : Finset ℕ),
      (∀ ev ∈ evs, (ev.eval box).isUnsatR = false) →
      (evaluateBoxAux box prec evs cs acc).2 = cs ∧
      ∃ bs, (evaluateBoxAux box prec evs cs acc).1 = some bs ∧
        ∀ d, d ∈ bs ↔ (d ∈ acc ∨ ∃ ev ∈ evs, ∃ iv,
          ev.eval box = .unknown iv ∧ prec < iv.diam ∧ d ∈ ev.vars ∧
          (box.getI d).isBisectable = true) := by
  intro evs
  induction evs with
  | nil =>
    intro cs acc _
    exact ⟨rfl, acc, rfl, fun d => by simp [evaluateBoxAux]⟩
  | cons ev rest ih =>
    intro cs acc h
    have hev : (ev.eval box).isUnsatR = false := h ev (List.mem_cons_self ev rest)
    have hrest : ∀ e ∈ rest, (e.eval box).isUnsatR = false :=
      fun e he => h e (List.mem_cons_of_mem ev he)
    cases hres : ev.eval box with
    | unsat => rw [hres] at hev; exact absurd hev (by simp [FEResult.isUnsatR])
    | valid =>
      simp only [evaluateBoxAux, hres]
      obtain ⟨h1, bs, h2, h3⟩ := ih cs acc hrest
      refine ⟨h1, bs, h2, fun d => ?_⟩
      rw [h3 d, List.exists_mem_cons_iff]
      simp [hres]
    | unknown iv =>
      by_cases hd : prec < iv.diam
      · simp only [evaluateBoxAux, hres, if_pos hd]
        obtain ⟨h1, bs, h2, h3⟩ :=
          ih cs (acc ∪ (ev.vars.filter
            (fun v => (box.getI v).isBisectable)).toFinset) hrest
        refine ⟨h1, bs, h2, fun d => ?_⟩
        rw [h3 d, List.exists_mem_cons_iff]
        simp only [Finset.mem_union, List.mem_toFinset, List.mem_filter, hres,
          FEResult.unknown.injEq]
        constructor
        · rintro ((hacc | ⟨hv, hb⟩) | hx)
          · exact Or.inl hacc
          · exact Or.inr (Or.inl ⟨iv, rfl, hd, hv, hb⟩)
          · exact Or.inr (Or.inr hx)
        · rintro (hacc | ⟨iv2, hiv2, hdm, hv, hb⟩ | hx)
          · exact Or.inl (Or.inl hacc)
          · exact Or.inl (Or.inr ⟨hv, hb⟩)
          · exact Or.inr hx
      · simp only [evaluateBoxAux, hres, if_neg hd]
        obtain ⟨h1, bs, h2, h3⟩ := ih cs acc hrest
        refine ⟨h1, bs, h2, fun d => ?_⟩
        rw [h3 d, List.exists_mem_cons_iff]
        simp only [hres, FEResult.unknown.injEq]
        constructor
        · rintro (hacc | hx)
          · exact Or.inl hacc
          · exact Or.inr (Or.inr hx)
        · rintro (hacc | ⟨iv2, hiv2, hdm, _, _⟩ | hx)
          · exact Or.inl hacc
          · exact absurd hdm (hiv2 ▸ hd)
          · exact Or.inr hx

lemma evaluateBoxAux_unsat_first (box : Box) (prec : ℚ) :
    ∀ (pre : List FormulaEvaluator) (ev : FormulaEvaluator)
      (post : List FormulaEvaluator) (cs : ContractorStatus) (acc : Finset ℕ),
      (∀ e ∈ pre, (e.eval box).isUnsatR = false) →
      (ev.eval box).isUnsatR = true →
      evaluateBoxAux box prec (pre ++ ev :: post) cs acc =
        (none, { cs with box := cs.box.setEmptyB,
                         used := insert ev.formula cs.used }) := by
  intro pre
  induction pre with
  | nil =>
    intro ev post cs acc _ hu
    cases hres : ev.eval box with
    | unsat => simp [evaluateBoxAux, hres]
    | valid => rw [hres] at hu; exact absurd hu (by simp [FEResult.isUnsatR])
    | unknown iv => rw [hres] at hu; exact absurd hu (by simp [FEResult.isUnsatR])
  | cons e pre ih =>
    intro ev post cs acc h hu
    have he : (e.eval box).isUnsatR = false := h e (List.mem_cons_self e pre)
    have hpre : ∀ x ∈ pre, (x.eval box).isUnsatR = false :=
      fun x hx => h x (List.mem_cons_of_mem e hx)
    cases hres : e.eval box with
    | unsat => rw [hres] at he; exact absurd he (by simp [FEResult.isUnsatR])
    | valid =>
      simp only [List.cons_append, evaluateBoxAux, hres]
      exact ih ev post cs acc hpre hu
    | unknown iv =>
      by_cases hd : prec < iv.diam
      · simp only [List.cons_append, evaluateBoxAux, hres, if_pos hd]
        exact ih ev post cs _ hpre hu
      · simp only [List.cons_append, evaluateBoxAux, hres, if_neg hd]
        exact ih ev post cs acc hpre hu

/-- C2: characterization of `Icp::EvaluateBox`.  (a) As soon as the first
evaluator reports UNSAT, the box in the status is set empty, the offending
formula is added to the used constraints, and `None` is returned.  (b) When
no evaluator reports UNSAT, the status is untouched and the returned bitset
is exactly the candidate set.  (c) The candidate set holds exactly the
box-indices `d` such that some evaluator is UNKNOWN with an evaluation
interval of diameter strictly above the precision, `d` is a free variable
of that evaluator's formula, and dimension `d` of the box is bisectable.
VALID results and narrow UNKNOWN results contribute nothing. -/
theorem evaluateBox_spec (evs : List FormulaEvaluator) (box : Box)
    (prec : ℚ) (cs : ContractorStatus) :
    (∀ (pre : List FormulaEvaluator) (ev : FormulaEvaluator)
       (post : List FormulaEvaluator),
       evs = pre ++ ev :: post →
       (∀ e ∈ pre, (e.eval box).isUnsatR = false) →
       (ev.eval box).isUnsatR = true →
       evaluateBox evs box prec cs =
         (none, { cs with box := cs.box.setEmptyB,
                          used := insert ev.formula cs.used })) ∧
    ((∀ ev ∈ evs, (ev.eval box).isUnsatR = false) →
       evaluateBox evs box prec cs = (some (candidateSet evs box prec), cs)) ∧
    (∀ d, d ∈ candidateSet evs box prec ↔ ∃ ev ∈ evs, ∃ iv,
       ev.eval box = .unknown iv ∧ prec < iv.diam ∧ d ∈ ev.vars ∧
       (box.getI d).isBisectable = true) := by
  have hcand : ∀ d, d ∈ candidateSet evs box prec ↔ ∃ ev ∈ evs, ∃ iv,
      ev.eval box = .unknown iv ∧ prec < iv.diam ∧ d ∈ ev.vars ∧
      (box.getI d).isBisectable = true := by
    intro d
    unfold candidateSet
    rw [Finset.mem_filter, Finset.mem_range]
    constructor
    · rintro ⟨-, hany⟩
      rw [List.any_eq_true] at hany
      obtain ⟨ev, hmem, hev⟩ := hany
      rw [Bool.and_eq_true] at hev
      obtain ⟨hmatch, hvars⟩ := hev
      rw [List.any_eq_true] at hvars
      obtain ⟨v, hv, hvd⟩ := hvars
      rw [Bool.and_eq_true, beq_iff_eq] at hvd
      obtain ⟨rfl, hb⟩ := hvd
      cases hres : ev.eval box with
      | unsat => simp only [hres] at hmatch; exact Bool.noConfusion hmatch
      | valid => simp only [hres] at hmatch; exact Bool.noConfusion hmatch
      | unknown iv =>
        simp only [hres] at hmatch
        exact ⟨ev, hmem, iv, hres, of_decide_eq_true hmatch, hv, hb⟩
    · rintro ⟨ev, hmem, iv, hres, hdm, hv, hb⟩
      refine ⟨isBisectable_lt_dim box d hb, ?_⟩
      rw [List.any_eq_true]
      refine ⟨ev, hmem, ?_⟩
      simp only [hres, Bool.and_eq_true]
      refine ⟨decide_eq_true hdm, ?_⟩
      rw [List.any_eq_true]
      exact ⟨d, hv, by simp [hb]⟩
  refine ⟨?_, ?_, hcand⟩
  · rintro pre ev post rfl hpre hu
    exact evaluateBoxAux_unsat_first box prec pre ev post cs ∅ hpre hu
  · intro h
    obtain ⟨h1, bs, h2, h3⟩ := evaluateBoxAux_no_unsat box prec evs cs ∅ h
    have hbs : bs = candidateSet evs box prec := by
      apply Finset.ext
      intro d
      rw [h3 d, hcand d]
      simp
    rw [evaluateBox, Prod.ext_iff]
    exact ⟨by rw [h2, hbs], h1⟩

/-- C2 (witness): on the concrete evaluator `evEx` (UNKNOWN with diameter 1
above precision 1/100) over the box `[0, 4]`, `EvaluateBox` leaves the
status alone and returns the candidate set. -/
theorem evaluateBox_spec_witness :
    evaluateBox [evEx] bEx (1/100) csEx =
      (some (candidateSet [evEx] bEx (1/100)), csEx) :=
  (evaluateBox_spec [evEx] bEx (1/100) csEx).2.1 (by with_unfolding_all decide)

/-- C4: the caller-side control flow of `IcpParallel::CheckSat`.  The
initial box is pruned once; if it empties, `false` is returned immediately
with that status.  Otherwise, after the worker phase, every worker status
is `InplaceJoin`-ed into the caller's; with `found_delta_sat ≥ 0` the
caller's box becomes the finder's box and the result is `true`, and with
`found_delta_sat` still `-1` the caller's box is set empty and the result
is `false`. -/
theorem icpParallel_checkSat_spec
    (prune : ContractorStatus → ContractorStatus)
    (runWorkers : ContractorStatus → List ContractorStatus × Int)
    (cs : ContractorStatus) :
    ((prune cs).box.isEmptyB = true →
      icpParallelCheckSat prune runWorkers cs = (false, prune cs)) ∧
    ((prune cs).box.isEmptyB = false → 0 ≤ (runWorkers (prune cs)).2 →
      icpParallelCheckSat prune runWorkers cs =
        (true, { (runWorkers (prune cs)).1.foldl inplaceJoin (prune cs) with
                 box := ((runWorkers (prune cs)).1.getD
                   (runWorkers (prune cs)).2.toNat (prune cs)).box })) ∧
    ((prune cs).box.isEmptyB = false → (runWorkers (prune cs)).2 < 0 →
      icpParallelCheckSat prune runWorkers cs =
        (false, { (runWorkers (prune cs)).1.foldl inplaceJoin (prune cs) with
                  box := ((runWorkers (prune cs)).1.foldl inplaceJoin
                    (prune cs)).box.setEmptyB })) := by
  refine ⟨?_, ?_, ?_⟩
  · intro h
    simp [icpParallelCheckSat, h]
  · intro h hf
    simp [icpParallelCheckSat, h, hf]
  · intro h hf
    simp [icpParallelCheckSat, h, not_le.mpr hf]

/-- C4 (witness): a pruning contractor that empties the box makes the
parallel `CheckSat` return UNSAT immediately. -/
theorem icpParallel_checkSat_spec_witness :
    icpParallelCheckSat (fun c => { c with box := c.box.setEmptyB })
      (fun c => ([c], -1)) csEx =
      (false, { csEx with box := csEx.box.setEmptyB }) :=
  (icpParallel_checkSat_spec (fun c => { c with box := c.box.setEmptyB })
    (fun c => ([c], -1)) csEx).1 (by with_unfolding_all decide)

/-- C7: `VisitPow` dispatch.  The evaluator first evaluates both the base
and the exponent intervals; when the exponent interval is non-empty and
degenerate at an integer point `n` it returns `sqr` of the base interval
for `n = 2` and the integer-power extension `pow(base, n)` for every other
integer; a degenerate non-integer point falls back to the real-exponent
power, and a non-degenerate (or empty) exponent interval to the general
interval-exponent power. -/
theorem visitPow_dispatch (ops : IntervalOps) (e1 e2 : Expr) (box : Box) :
    visit ops box (.powE e1 e2) =
      visitPowI ops (visit ops box e1) (visit ops box e2) ∧
    (∀ n : ℤ, (visit ops box e2).isEmpty = false →
       (visit ops box e2).lb = (visit ops box e2).ub →
       (visit ops box e2).lb = (n : ℚ) →
       visit ops box (.powE e1 e2) =
         (if n = 2 then (visit ops box e1).sqr
          else intPow ops (visit ops box e1) n)) ∧
    ((visit ops box e2).isEmpty = false →
       (visit ops box e2).lb = (visit ops box e2).ub →
       isIntegerQ (visit ops box e2).lb = false →
       visit ops box (.powE e1 e2) =
         ops.powReal (visit ops box e1) (visit ops box e2).lb) ∧
    (((visit ops box e2).isDegenerated && !(visit ops box e2).isEmpty)
        = false →
       visit ops box (.powE e1 e2) =
         ops.powItv (visit ops box e1) (visit ops box e2)) := by
  have h0 : visit ops box (.powE e1 e2) =
      visitPowI ops (visit ops box e1) (visit ops box e2) := by
    simp [visit]
  refine ⟨h0, ?_, ?_, ?_⟩
  · intro n hEmp hDeg hn
    rw [h0]
    have hcond : ((visit ops box e2).isDegenerated &&
        !(visit ops box e2).isEmpty) = true := by
      simp [Interval.isDegenerated, hEmp, hDeg]
    have hint : isIntegerQ (visit ops box e2).lb = true := by
      rw [hn]
      simp [isIntegerQ, Rat.den_intCast]
    rw [visitPowI, hcond]
    simp only [if_true]
    rcases eq_or_ne n 2 with h2 | h2
    · subst h2
      have hbeq : ((visit ops box e2).lb == (2 : ℚ)) = true := by
        rw [hn]; simp
      rw [hint, hbeq]
      simp
    · have hbeq : ((visit ops box e2).lb == (2 : ℚ)) = false := by
        rw [hn]
        simp only [beq_eq_false_iff_ne, ne_eq]
        intro hc
        apply h2
        have : ((n : ℚ)) = ((2 : ℤ) : ℚ) := by push_cast; exact hc
        exact_mod_cast this
      rw [hint, hbeq]
      simp [h2, hn, Rat.num_intCast]
  · intro hEmp hDeg hint
    rw [h0]
    have hcond : ((visit ops box e2).isDegenerated &&
        !(visit ops box e2).isEmpty) = true := by
      simp [Interval.isDegenerated, hEmp, hDeg]
    rw [visitPowI, hcond]
    simp [hint]
  · intro hcond
    rw [h0, visitPowI, hcond]
    simp

/-- C7 (witness): `x₀ ^ 3` over the box `[1, 2]` dispatches to the
integer-power extension (`n = 3 ≠ 2`). -/
theorem visitPow_dispatch_witness :
    visit opsZero [Interval.mk 1 2] (.powE (.varE 0) (.constE 3)) =
      (if (3 : ℤ) = 2 then (visit opsZero [Interval.mk 1 2] (.varE 0)).sqr
       else intPow opsZero (visit opsZero [Interval.mk 1 2] (.varE 0)) 3) :=
  (visitPow_dispatch opsZero (.varE 0) (.constE 3) [Interval.mk 1 2]).2.1 3
    (by with_unfolding_all decide) (by with_unfolding_all decide)
    (by with_unfolding_all decide)

lemma isEmptyB_false_comp (b : Box) (h : b.isEmptyB = false) (i : ℕ)
    (hi : i < b.dim) : (b.getI i).isEmpty = false := by
  rw [Box.isEmptyB, List.any_eq_false] at h
  rw [Box.getI, List.getD_eq_getElem (l := (b : List Interval)) _ hi]
  simpa using h _ (List.getElem_mem hi)

lemma isEmptyB_pos_dim (b : Box) (h : b.isEmptyB = true) : 0 < b.dim := by
  rw [Box.isEmptyB, List.any_eq_true] at h
  obtain ⟨x, hx, -⟩ := h
  exact List.length_pos.mpr (List.ne_nil_of_mem hx)

lemma ivEq_false_of (o n : Interval) (ho : o.isEmpty = false)
    (hn : n.isEmpty = true) : o.ivEq n = false := by
  simp only [Interval.ivEq, ho, Bool.false_and, Bool.false_or]
  simp only [Interval.isEmpty, decide_eq_false_iff_not, not_lt] at ho
  simp only [Interval.isEmpty, decide_eq_true_eq] at hn
  rcases eq_or_ne o.lb n.lb with hb1 | hb1
  · rcases eq_or_ne o.ub n.ub with hb2 | hb2
    · exfalso
      rw [hb1, hb2] at ho
      exact absurd hn (not_lt.mpr ho)
    · simp [hb2]
  · simp [hb1]

lemma prunePolytope_empty (contract : Box → Box) (formulas : Finset ℕ)
    (cs : ContractorStatus) (hE : (contract cs.box).isEmptyB = true) :
    prunePolytope contract formulas cs =
      { cs with box := contract cs.box,
                output := cs.output ∪ Finset.range (contract cs.box).dim,
                used := cs.used ∪ formulas } := by
  unfold prunePolytope
  simp [hE]

lemma prunePolytope_nonempty (contract : Box → Box) (formulas : Finset ℕ)
    (cs : ContractorStatus) (hE : (contract cs.box).isEmptyB = false) :
    prunePolytope contract formulas cs =
      { cs with box := contract cs.box,
                output := cs.output ∪ changedDims cs.box (contract cs.box),
                used := if changedDims cs.box (contract cs.box) = ∅
                        then cs.used else cs.used ∪ formulas } := by
  unfold prunePolytope
  simp [hE]

/-- C8 (amended): for a non-empty input box (and an external ibex
contraction that, when it proves infeasibility, empties every component —
ibex's `set_empty` convention), `ContractorIbexPolytope::Prune` adds to
`output` exactly the dimensions whose interval changed, records all its
formulas in `used_constraints` whenever any dimension changed, leaves both
untouched when no dimension changed, installs the contracted vector as the
box (so the box is empty exactly when ibex proved the box infeasible), and
does not touch the branching point.  On an already-empty input box the code
instead marks every dimension and records the constraints even though
nothing changed (see the counterexample). -/
theorem polytope_prune_frame (contract : Box → Box) (formulas : Finset ℕ)
    (cs : ContractorStatus)
    (h1 : cs.box.isEmptyB = false)
    (h2 : (contract cs.box).dim = cs.box.dim)
    (h3 : (contract cs.box).isEmptyB = true →
      ∀ i ∈ Finset.range (contract cs.box).dim,
        ((contract cs.box).getI i).isEmpty = true) :
    (prunePolytope contract formulas cs).box = contract cs.box ∧
    (prunePolytope contract formulas cs).output =
      cs.output ∪ changedDims cs.box (contract cs.box) ∧
    (changedDims cs.box (contract cs.box) ≠ ∅ →
      (prunePolytope contract formulas cs).used = cs.used ∪ formulas) ∧
    (changedDims cs.box (contract cs.box) = ∅ →
      (prunePolytope contract formulas cs).used = cs.used ∧
      (prunePolytope contract formulas cs).output = cs.output) ∧
    (prunePolytope contract formulas cs).box.isEmptyB
      = (contract cs.box).isEmptyB ∧
    (prunePolytope contract formulas cs).branchingPoint
      = cs.branchingPoint := by
  by_cases hE : (contract cs.box).isEmptyB = true
  · have hrange : Finset.range (contract cs.box).dim =
        changedDims cs.box (contract cs.box) := by
      apply Finset.ext
      intro i
      rw [changedDims, Finset.mem_filter, h2]
      constructor
      · intro hi
        rw [Finset.mem_range] at hi
        refine ⟨Finset.mem_range.mpr hi, ?_⟩
        rw [ivEq_false_of _ _ (isEmptyB_false_comp cs.box h1 i hi)
          (h3 hE i (Finset.mem_range.mpr (h2 ▸ hi)))]
        simp
      · exact fun hi => hi.1
    have hne : changedDims cs.box (contract cs.box) ≠ ∅ := by
      rw [← hrange]
      have := isEmptyB_pos_dim _ hE
      simp only [ne_eq, Finset.range_eq_empty_iff]
      omega
    rw [prunePolytope_empty contract formulas cs hE]
    refine ⟨rfl, ?_, fun _ => rfl, fun hc => absurd hc hne, rfl, rfl⟩
    rw [hrange]
  · rw [prunePolytope_nonempty contract formulas cs
      (Bool.eq_false_iff.mpr hE)]
    refine ⟨rfl, rfl, fun hne => ?_, fun hc => ?_, rfl, rfl⟩
    · simp only [if_neg hne]
    · simp [hc]

/-- C8 (counterexample): when the input box is already empty, an external
contraction that changes nothing still makes `Prune` mark every dimension
as output and record its formulas as used — the frame contract
"output holds exactly the changed dimensions; output and used are
untouched when no dimension changed" is violated. -/
theorem polytope_prune_claim_false :
    changedDims csEmptyIn.box ((fun b => b) csEmptyIn.box) = ∅ ∧
    (prunePolytope (fun b => b) {5} csEmptyIn).output = {0} ∧
    (prunePolytope (fun b => b) {5} csEmptyIn).used = {5} ∧
    csEmptyIn.output = ∅ ∧ csEmptyIn.used = ∅ := by
  with_unfolding_all decide

/-- C8 (witness): the amended frame contract at a concrete narrowing
contraction `[0,4] ↦ [0,1]`. -/
theorem polytope_prune_frame_witness :
    (prunePolytope (fun _ => [Interval.mk 0 1]) {7} csEx).box
      = (fun (_ : Box) => ([Interval.mk 0 1] : Box)) csEx.box ∧
    (prunePolytope (fun _ => [Interval.mk 0 1]) {7} csEx).output =
      csEx.output ∪ changedDims csEx.box
        ((fun (_ : Box) => ([Interval.mk 0 1] : Box)) csEx.box) ∧
    (changedDims csEx.box ((fun (_ : Box) => ([Interval.mk 0 1] : Box)) csEx.box) ≠ ∅ →
      (prunePolytope (fun _ => [Interval.mk 0 1]) {7} csEx).used
        = csEx.used ∪ {7}) ∧
    (changedDims csEx.box ((fun (_ : Box) => ([Interval.mk 0 1] : Box)) csEx.box) = ∅ →
      (prunePolytope (fun _ => [Interval.mk 0 1]) {7} csEx).used = csEx.used ∧
      (prunePolytope (fun _ => [Interval.mk 0 1]) {7} csEx).output
        = csEx.output) ∧
    (prunePolytope (fun _ => [Interval.mk 0 1]) {7} csEx).box.isEmptyB
      = Box.isEmptyB ((fun (_ : Box) => ([Interval.mk 0 1] : Box)) csEx.box) ∧
    (prunePolytope (fun _ => [Interval.mk 0 1]) {7} csEx).branchingPoint
      = csEx.branchingPoint :=
  polytope_prune_frame (fun _ => [Interval.mk 0 1]) {7} csEx
    (by with_unfolding_all decide) (by with_unfolding_all decide)
    (by with_unfolding_all decide)

/-- C10: the lazily-populated `ContractorIbexFwdbwdMt`.  (a) Before slot 0
is ready, each of `input()`, `mutable_input()` and `is_dummy()` trips its
debug assertion (modelled as `none`): slot-0 initialization is a
precondition of the accessors.  (b) A (release-mode) `Prune` executed on
the thread with id 0 creates the slot, and the accessors are defined
afterwards.  (c) A `Prune` on any other thread id leaves the slot-0 ready
flag unchanged, so only thread 0's first `Prune` enables the accessors. -/
theorem fwdbwdMt_accessor_guard :
    (∀ st : MtState, st.ready.getD 0 false = false →
       mtInput st = none ∧ mtMutableInput st = none ∧ mtIsDummy st = none) ∧
    (∀ (mk : Box → MtCtc) (st : MtState) (cs : ContractorStatus),
       0 < st.ready.length →
       (∀ i ∈ Finset.range st.ready.length,
         st.ready.getD i false = true → (st.ctcs.getD i none).isSome = true) →
       0 < st.ctcs.length →
       (mtPruneRelease mk st 0 cs).ready.getD 0 false = true ∧
       (mtInput (mtPruneRelease mk st 0 cs)).isSome = true ∧
       (mtMutableInput (mtPruneRelease mk st 0 cs)).isSome = true ∧
       (mtIsDummy (mtPruneRelease mk st 0 cs)).isSome = true) ∧
    (∀ (mk : Box → MtCtc) (st : MtState) (tid : ℕ) (cs : ContractorStatus),
       tid ≠ 0 →
       (mtPruneRelease mk st tid cs).ready.getD 0 false
         = st.ready.getD 0 false) := by
  refine ⟨?_, ?_, ?_⟩
  · intro st h
    exact ⟨by rw [mtInput, h]; rfl, by rw [mtMutableInput, h]; rfl,
      by rw [mtIsDummy, h]; rfl⟩
  · intro mk st cs hlen hinv hclen
    by_cases hr : st.ready.getD 0 false = true
    · have hslot : (st.ctcs.getD 0 none).isSome = true :=
        hinv 0 (Finset.mem_range.mpr hlen) hr
      obtain ⟨c, hc⟩ := Option.isSome_iff_exists.mp hslot
      have hst : mtPruneRelease mk st 0 cs = st := by
        rw [mtPruneRelease, getCtcOrCreate, if_pos hr, hc]
      rw [hst]
      refine ⟨hr, ?_, ?_, ?_⟩
      · rw [mtInput, if_pos hr, hc]; rfl
      · rw [mtMutableInput, if_pos hr, hc]; rfl
      · rw [mtIsDummy, if_pos hr, hc]; rfl
    · have hst : mtPruneRelease mk st 0 cs =
          { ready := st.ready.set 0 true,
            ctcs := st.ctcs.set 0 (some (mk cs.box)) } := by
        rw [mtPruneRelease, getCtcOrCreate, if_neg hr]
      have hready : (st.ready.set 0 true).getD 0 false = true := by
        rw [List.getD_eq_getElem?_getD,
          List.getElem?_set_self (by simpa using hlen)]
        rfl
      have hctc : (st.ctcs.set 0 (some (mk cs.box))).getD 0 none
          = some (mk cs.box) := by
        rw [List.getD_eq_getElem?_getD,
          List.getElem?_set_self (by simpa using hclen)]
        rfl
      rw [hst]
      refine ⟨hready, ?_, ?_, ?_⟩
      · rw [mtInput]
        simp only [hready, if_true, hctc]
        rfl
      · rw [mtMutableInput]
        simp only [hready, if_true, hctc]
        rfl
      · rw [mtIsDummy]
        simp only [hready, if_true, hctc]
        rfl
  · intro mk st tid cs htid
    rw [mtPruneRelease, getCtcOrCreate]
    by_cases hr : st.ready.getD tid false = true
    · rw [if_pos hr]
      cases st.ctcs.getD tid none <;> rfl
    · rw [if_neg hr]
      simp only
      rw [List.getD_eq_getElem?_getD, List.getElem?_set_ne (by omega),
        ← List.getD_eq_getElem?_getD]

/-- C10 (witness): on a fresh two-slot state the accessors are undefined,
and a `Prune` on thread 0 makes them defined.  Conjunct (a) applied at the
fresh state. -/
theorem fwdbwdMt_accessor_guard_witness :
    mtInput { ready := [false, false], ctcs := [none, none] } = none ∧
    mtMutableInput { ready := [false, false], ctcs := [none, none] } = none ∧
    mtIsDummy { ready := [false, false], ctcs := [none, none] } = none :=
  fwdbwdMt_accessor_guard.1 { ready := [false, false], ctcs := [none, none] }
    (by decide)

end Dreal
